import Mathlib

/-!
Verification of the retrieval subsystem of an information-retrieval program
(Porter-style stemmer, inverted-list boolean model, signature-based boolean
model, vector-space model).  Each Python function of `porter.py` and
`models.py` is shallowly embedded as a Lean definition; Python floats are
idealised as real numbers, Python lists as Lean lists, Python sets of
document ids as `Finset ℕ`, and Python dicts as association lists or
functions, as noted at each definition.
-/

/-! ## Porter stemmer (`porter.py`) -/

/-- Vowel test used by `get_measure`, `condition_d` and `cond_o`:
the character class `[aeiou]` (note: `y` is NOT in this class). -/
def isVowel (c : Char) : Bool :=
  c = 'a' || c = 'e' || c = 'i' || c = 'o' || c = 'u'

/-- The character class `[aeiouy]` used by `condition_v`, `cond_o` and the
second substitution in `get_measure`. -/
def isVowelY (c : Char) : Bool :=
  isVowel c || c = 'y'

/-- Replaces every maximal run of characters satisfying `p` by the single
character `rep`, mirroring `re.sub(r'[class]+', rep, s)`.  The flag records
whether the previous character was inside a run. -/
def collapseAux (p : Char → Bool) (rep : Char) : Bool → List Char → List Char
  | _, [] => []
  | inRun, c :: cs =>
    if p c then
      (if inRun then collapseAux p rep true cs else rep :: collapseAux p rep true cs)
    else c :: collapseAux p rep false cs

/-- Counts occurrences of the adjacent pair `VC`, mirroring
`form.count('VC')` (the pattern `VC` cannot overlap itself). -/
def countVC : List Char → ℕ
  | [] => 0
  | [_] => 0
  | a :: b :: rest => (if a = 'V' && b = 'C' then 1 else 0) + countVC (b :: rest)

/-- Embeds `porter.get_measure`: consonant runs (`[^aeiou]+`) are collapsed
to `C`, then vowel runs (`[aeiouy]+`) to `V`, and the occurrences of `VC`
are counted.  As in the source, `y` is collapsed as a consonant by the
first substitution, so it never survives to the second one. -/
def get_measure (term : String) : ℕ :=
  countVC (collapseAux isVowelY 'V' false
    (collapseAux (fun c => !(isVowel c)) 'C' false term.data))

/-- Embeds `porter.condition_v`: the stem contains a character of
`[aeiouy]`. -/
def condition_v (stem : String) : Bool :=
  stem.data.any isVowelY

/-- Embeds `porter.condition_d` (`re.search(r'([^aeiou])\1$', stem)`): the
stem ends with two equal characters outside `[aeiou]`. -/
def condition_d (stem : String) : Bool :=
  match stem.data.reverse with
  | c1 :: c2 :: _ => c1 = c2 && !(isVowel c1)
  | _ => false

/-- Embeds `porter.cond_o` (`re.search(r'[^aeiou][aeiouy][^aeiouwxy]$', stem)`):
the last three characters are consonant, vowel-or-y, consonant not in
`wxy`. -/
def cond_o (stem : String) : Bool :=
  match stem.data.reverse with
  | c3 :: c2 :: c1 :: _ =>
    !(isVowel c1) && isVowelY c2 && !(isVowel c3 || c3 = 'w' || c3 = 'x' || c3 = 'y')
  | _ => false

/-- Suffix test `word.endswith(suffix)`. -/
def endsW (word suffix : String) : Bool :=
  suffix.data.isSuffixOf word.data

/-- Embeds the inner helper `replace_suffix` of `stem_term`:
`word[:-len(suffix)] + replacement` when the suffix is present. -/
def replace_suffix (word suffix replacement : String) : String :=
  if endsW word suffix then
    String.mk (word.data.take (word.data.length - suffix.data.length)) ++ replacement
  else word

/-- Lower-casing, mirroring Python `str.lower()` on the ASCII words the
program processes. -/
def lowerStr (s : String) : String :=
  String.mk (s.data.map Char.toLower)

/-- Embeds `step_1a` of `stem_term`. -/
def step_1a (word : String) : String :=
  if endsW word "sses" then replace_suffix word "sses" "ss"
  else if endsW word "ies" then replace_suffix word "ies" "i"
  else if endsW word "ss" then word
  else if endsW word "s" then replace_suffix word "s" ""
  else word

/-- Embeds `step_1b_2` of `stem_term`. -/
def step_1b_2 (word : String) : String :=
  if endsW word "at" || endsW word "bl" || endsW word "iz" then word ++ "e"
  else if condition_d word && !(endsW word "ll" || endsW word "ss" || endsW word "zz") then
    String.mk (word.data.take (word.data.length - 1))
  else if get_measure word = 1 && cond_o word then word ++ "e"
  else word

/-- Embeds `step_1b` of `stem_term`. -/
def step_1b (word : String) : String :=
  if endsW word "eed" then
    (if get_measure (replace_suffix word "eed" "") > 0 then
      replace_suffix word "eed" "" ++ "ee"
    else word)
  else if endsW word "ed" then
    (if condition_v (replace_suffix word "ed" "") then
      step_1b_2 (replace_suffix word "ed" "")
    else word)
  else if endsW word "ing" then
    (if condition_v (replace_suffix word "ing" "") then
      step_1b_2 (replace_suffix word "ing" "")
    else word)
  else word

/-- Embeds `step_1c` of `stem_term`. -/
def step_1c (word : String) : String :=
  if endsW word "y" then
    (if condition_v (replace_suffix word "y" "") then
      replace_suffix word "y" "" ++ "i"
    else word)
  else word

/-- Embeds the shared loop shape of `step_2`, `step_3` and `step_4` of
`stem_term`: scan the rule list in source order; on the first rule whose
suffix ends the word AND whose stem has measure greater than `gate`,
return stem plus replacement; otherwise keep scanning (as in the source,
a suffix match that fails the measure test does NOT stop the scan). -/
def applyRuleList (gate : ℕ) (rules : List (String × String)) (word : String) : String :=
  match rules with
  | [] => word
  | (suf, rep) :: rest =>
    if endsW word suf && get_measure (replace_suffix word suf "") > gate then
      replace_suffix word suf "" ++ rep
    else applyRuleList gate rest word

/-- Embeds `step_2` of `stem_term` (suffix dictionary in its source
insertion order, measure gate `> 0`). -/
def step_2 (word : String) : String :=
  applyRuleList 0
    [("ational", "ate"), ("tional", "tion"), ("enci", "ence"), ("anci", "ance"),
     ("izer", "ize"), ("abli", "able"), ("alli", "al"), ("entli", "ent"),
     ("eli", "e"), ("ousli", "ous"), ("ization", "ize"), ("ation", "ate"),
     ("ator", "ate"), ("alism", "al"), ("iveness", "ive"), ("fulness", "ful"),
     ("ousness", "ous"), ("aliti", "al"), ("iviti", "ive"), ("biliti", "ble")]
    word

/-- Embeds `step_3` of `stem_term`. -/
def step_3 (word : String) : String :=
  applyRuleList 0
    [("icate", "ic"), ("ative", ""), ("alize", "al"), ("iciti", "ic"),
     ("ical", "ic"), ("ful", ""), ("ness", "")]
    word

/-- Embeds `step_4` of `stem_term`: plain suffix stripping with measure
gate `> 1`; note the source imposes NO extra condition on the suffix
`ion`. -/
def step_4 (word : String) : String :=
  applyRuleList 1
    [("al", ""), ("ance", ""), ("ence", ""), ("er", ""), ("ic", ""),
     ("able", ""), ("ible", ""), ("ant", ""), ("ement", ""), ("ment", ""),
     ("ent", ""), ("ion", ""), ("ou", ""), ("ism", ""), ("ate", ""),
     ("iti", ""), ("ous", ""), ("ive", ""), ("ize", "")]
    word

/-- Embeds `step_5a` of `stem_term`. -/
def step_5a (word : String) : String :=
  if endsW word "e" then
    (if get_measure (replace_suffix word "e" "") > 1 ||
        (get_measure (replace_suffix word "e" "") = 1 &&
          !(cond_o (replace_suffix word "e" ""))) then
      replace_suffix word "e" ""
    else word)
  else word

/-- Embeds `step_5b` of `stem_term`. -/
def step_5b (word : String) : String :=
  if endsW word "l" && get_measure word > 1 && condition_d word then
    String.mk (word.data.take (word.data.length - 1))
  else word

/-- Embeds `porter.stem_term`: lower-case the input, then apply steps
1a, 1b, 1c, 2, 3, 4, 5a, 5b in order. -/
def stem_term (term : String) : String :=
  step_5b (step_5a (step_4 (step_3 (step_2 (step_1c (step_1b (step_1a (lowerStr term))))))))

/-! Claims C4, C5, C7: the stemmer. -/

/-- Claim C4, counterexample: the three reference vectors do NOT all hold on
the code: `stem_term "agreed"` is `"agre"`, not `"agree"` (step 5a further
strips the trailing `e`, since `measure "agre" = 1` and the cvc condition
fails), refuting the conjunction as stated. -/
theorem C4_reference_vectors_refuted :
    ¬ (stem_term "caresses" = "caress" ∧ stem_term "agreed" = "agree" ∧
       stem_term "feed" = "feed") := by
  decide

/-- Claim C4 (amended): the stemmer satisfies
`stem "caresses" = "caress"`, `stem "agreed" = "agre"` (step 1b rewrites
`eed → ee` because measure is positive, and step 5a then strips the final
`e`), and `stem "feed" = "feed"` (unchanged because the `eed → ee` rule is
measure-gated). -/
theorem C4_reference_vectors :
    stem_term "caresses" = "caress" ∧ stem_term "agreed" = "agre" ∧
    stem_term "feed" = "feed" := by
  decide

/-- Claim C5: refuted by the code — `stem_term` has no guard for words of
length at most 2, so step 1a strips the final `s` of the two-letter word
`"as"`, giving `"a"`; length-2 words are not all fixed points. -/
theorem C5_short_word_not_fixed :
    "as".length ≤ 2 ∧ stem_term "as" = "a" ∧ stem_term "as" ≠ "as" := by
  decide

/-- Claim C7: refuted by the code — `step_4` strips `ion` purely under the
measure gate `> 1`, with no requirement that the remaining stem end in `s`
or `t`: on `"opinion"` it produces `"opin"`, whose last letter is `n`, and
the full stemmer returns `"opin"`. -/
theorem C7_ion_stripped_without_st :
    stem_term "opinion" = "opin" ∧ step_4 "opinion" = "opin" ∧
    get_measure "opin" > 1 ∧
    endsW "opin" "s" = false ∧ endsW "opin" "t" = false := by
  decide

/-! ## Inverted-list boolean model (`models.py`, `InvertedListBooleanModel`) -/

/-- Tokens produced by `query_to_representation`'s regex
`r'\(|\)|\w+|&|\||-'`: parentheses, the operators `&`, `|`, `-`, and
word terms. -/
inductive Tok where
  | lparen
  | rparen
  | amp
  | bar
  | dash
  | term (s : String)
deriving DecidableEq

/-- The Python string a token stands for.  Needed because `-` pops the
next raw token and looks that string up in the index. -/
def tokToStr : Tok → String
  | .lparen => "("
  | .rparen => ")"
  | .amp => "&"
  | .bar => "|"
  | .dash => "-"
  | .term s => s

/-- Entries of `evaluate_expression`'s `evaluation_stack`: either a result
set of document ids, or one of the marker strings `'AND'` / `'OR'`. -/
inductive Item where
  | res (s : Finset ℕ)
  | opAnd
  | opOr
deriving DecidableEq

/-- Embeds the final while loop of `evaluate_expression`, which folds the
collected stack front-to-back.  `none` models the `IndexError` of
`evaluation_stack.pop(0)` on an empty stack and the `TypeError` of
`&=`/`|=` between a set and a marker string; an operator entry found where
an operand is expected is skipped, exactly as in the source (`operator`
matching neither `'AND'` nor `'OR'`). -/
def foldLoop : Item → List Item → Option Item
  | r, [] => some r
  | Item.res a, Item.opAnd :: Item.res b :: rest => foldLoop (Item.res (a ∩ b)) rest
  | Item.res a, Item.opOr :: Item.res b :: rest => foldLoop (Item.res (a ∪ b)) rest
  | r, Item.res _ :: rest => foldLoop r rest
  | _, _ => none

/-- Pops the first stack entry (`IndexError`, hence `none`, when the stack
is empty) and runs the folding loop. -/
def foldItems : List Item → Option Item
  | [] => none
  | x :: xs => foldLoop x xs

/-- Embeds the token-consuming while loop of `evaluate_expression`:
returns the collected evaluation stack together with the tokens left
after an unmatched `)` (which breaks the loop).  On `(` the expression is
evaluated recursively and its result pushed; on `-` the next raw token is
popped and the complement of its postings pushed (`none` when no token
follows, modelling `token_list.pop(0)` raising `IndexError`); unknown
terms give `idx.get(term, set()) = ∅`, modelled by `idx` itself.  The
fuel argument only bounds the recursion; `evaluate_expression` supplies
one more than the token count, which the loop can never exhaust since
every step consumes at least one token. -/
def collectF (idx : String → Finset ℕ) (U : Finset ℕ) :
    ℕ → List Tok → Option (List Item × List Tok)
  | 0, _ => none
  | _ + 1, [] => some ([], [])
  | fuel + 1, Tok.lparen :: rest =>
    (match collectF idx U fuel rest with
     | none => none
     | some (inner, rest1) =>
       match foldItems inner with
       | none => none
       | some r =>
         match collectF idx U fuel rest1 with
         | none => none
         | some (items, rest2) => some (r :: items, rest2))
  | _ + 1, Tok.rparen :: rest => some ([], rest)
  | fuel + 1, Tok.amp :: rest =>
    (collectF idx U fuel rest).map (fun p => (Item.opAnd :: p.1, p.2))
  | fuel + 1, Tok.bar :: rest =>
    (collectF idx U fuel rest).map (fun p => (Item.opOr :: p.1, p.2))
  | fuel + 1, Tok.dash :: rest =>
    (match rest with
     | [] => none
     | nt :: rest1 =>
       (collectF idx U fuel rest1).map
         (fun p => (Item.res (U \ idx (tokToStr nt)) :: p.1, p.2)))
  | fuel + 1, Tok.term s :: rest =>
    (collectF idx U fuel rest).map (fun p => (Item.res (idx s) :: p.1, p.2))

/-- Embeds `InvertedListBooleanModel.evaluate_expression` as called from
`match`: collect the stack over the whole token list (leftover tokens
after an unmatched `)` are discarded, as the caller ignores the mutated
list), then fold it.  `none` models an uncaught Python exception. -/
def evaluate_expression (idx : String → Finset ℕ) (U : Finset ℕ)
    (tokens : List Tok) : Option Item :=
  match collectF idx U (tokens.length + 1) tokens with
  | none => none
  | some (items, _) => foldItems items

/-- State of `InvertedListBooleanModel`: the `defaultdict(set)` inverted
index (a total function, `∅` for unknown terms, mirroring
`idx.get(term, set())`) and the list of document representations. -/
structure InvertedListBooleanModel where
  inverted_index : String → Finset ℕ
  documents : List (Finset String)

/-- The freshly constructed model (`__init__`). -/
def InvertedListBooleanModel.emptyModel : InvertedListBooleanModel :=
  ⟨fun _ => ∅, []⟩

/-- Embeds `add_document`: append the document's term set, then insert the
new positional id into the postings of each of its terms. -/
def add_document (m : InvertedListBooleanModel) (words : List String) :
    InvertedListBooleanModel where
  inverted_index := fun t =>
    if t ∈ words.toFinset then m.inverted_index t ∪ {m.documents.length}
    else m.inverted_index t
  documents := m.documents ++ [words.toFinset]

/-- A model built by calling `add_document` once per document, in order. -/
def buildInv (docs : List (List String)) : InvertedListBooleanModel :=
  docs.foldl add_document InvertedListBooleanModel.emptyModel

/-- Boolean operators appearing in a flat query. -/
inductive BOp where
  | band
  | bor
deriving DecidableEq

/-- Token of a boolean operator. -/
def opTok : BOp → Tok
  | .band => .amp
  | .bor => .bar

/-- Stack marker of a boolean operator. -/
def opItem : BOp → Item
  | .band => .opAnd
  | .bor => .opOr

/-- Set operation performed by the folding loop for an operator. -/
def applyOp (a : Finset ℕ) (o : BOp) (b : Finset ℕ) : Finset ℕ :=
  match o with
  | .band => a ∩ b
  | .bor => a ∪ b

/-- Token list of the flat (non-parenthesized) query
`t op₁ u₁ op₂ u₂ …`. -/
def flatTokens (t : String) (rest : List (BOp × String)) : List Tok :=
  Tok.term t :: rest.flatMap (fun p => [opTok p.1, Tok.term p.2])

/-- The stack items the collection phase produces for the operator/term
tail of a flat query. -/
def itemsOf (idx : String → Finset ℕ) (rest : List (BOp × String)) : List Item :=
  rest.flatMap (fun p => [opItem p.1, Item.res (idx p.2)])

theorem flatTokens_length (t : String) (rest : List (BOp × String)) :
    (flatTokens t rest).length = 2 * rest.length + 1 := by
  induction rest with
  | nil => rfl
  | cons p rs ih =>
    simp only [flatTokens, List.flatMap_cons, List.cons_append, List.nil_append,
      List.length_cons] at ih ⊢
    omega

theorem collectF_flat (idx : String → Finset ℕ) (U : Finset ℕ) :
    ∀ (rest : List (BOp × String)) (t : String) (fuel : ℕ),
      2 * rest.length + 2 ≤ fuel →
      collectF idx U fuel (flatTokens t rest) =
        some (Item.res (idx t) :: itemsOf idx rest, []) := by
  intro rest
  induction rest with
  | nil =>
    intro t fuel h
    obtain ⟨f, rfl⟩ : ∃ f, fuel = f + 2 := ⟨fuel - 2, by omega⟩
    simp [flatTokens, itemsOf, collectF]
  | cons p rs ih =>
    intro t fuel h
    obtain ⟨f, rfl⟩ : ∃ f, fuel = f + 2 := ⟨fuel - 2, by omega⟩
    obtain ⟨o, u⟩ := p
    have htok : flatTokens t ((o, u) :: rs) =
        Tok.term t :: opTok o :: flatTokens u rs := by
      simp [flatTokens]
    have hit : itemsOf idx ((o, u) :: rs) =
        opItem o :: Item.res (idx u) :: itemsOf idx rs := by
      simp [itemsOf]
    rw [htok, hit]
    have hf : 2 * rs.length + 2 ≤ f := by
      simp only [List.length_cons] at h; omega
    cases o <;>
      simp [collectF, opTok, opItem, ih u f hf]

theorem foldLoop_flat (idx : String → Finset ℕ) :
    ∀ (rest : List (BOp × String)) (acc : Finset ℕ),
      foldLoop (Item.res acc) (itemsOf idx rest) =
        some (Item.res
          (rest.foldl (fun a p => applyOp a p.1 (idx p.2)) acc)) := by
  intro rest
  induction rest with
  | nil => intro acc; rfl
  | cons p rs ih =>
    intro acc
    obtain ⟨o, u⟩ := p
    have hit : itemsOf idx ((o, u) :: rs) =
        opItem o :: Item.res (idx u) :: itemsOf idx rs := by
      simp [itemsOf]
    rw [hit]
    cases o <;> simp [foldLoop, opItem, applyOp, ih]

theorem evaluate_flat (idx : String → Finset ℕ) (U : Finset ℕ)
    (t : String) (rest : List (BOp × String)) :
    evaluate_expression idx U (flatTokens t rest) =
      some (Item.res
        (rest.foldl (fun a p => applyOp a p.1 (idx p.2)) (idx t))) := by
  unfold evaluate_expression
  rw [collectF_flat idx U rest t _ (by simp only [flatTokens_length]; omega)]
  simpa [foldItems] using foldLoop_flat idx rest (idx t)

theorem buildInv_documents :
    ∀ (docs : List (List String)) (m : InvertedListBooleanModel),
      (docs.foldl add_document m).documents =
        m.documents ++ docs.map (fun w => w.toFinset) := by
  intro docs
  induction docs with
  | nil => intro m; simp
  | cons d ds ih =>
    intro m
    simp only [List.foldl_cons, List.map_cons]
    rw [ih]
    simp [add_document]

theorem buildInv_index_mem :
    ∀ (docs : List (List String)) (m : InvertedListBooleanModel)
      (t : String) (i : ℕ),
      i ∈ (docs.foldl add_document m).inverted_index t ↔
        i ∈ m.inverted_index t ∨
          ∃ j w, docs.get? j = some w ∧ t ∈ w ∧ i = m.documents.length + j := by
  intro docs
  induction docs with
  | nil => intro m t i; simp
  | cons d ds ih =>
    intro m t i
    simp only [List.foldl_cons]
    rw [ih]
    have hlen : (add_document m d).documents.length = m.documents.length + 1 := by
      simp [add_document]
    have hidx : i ∈ (add_document m d).inverted_index t ↔
        (i ∈ m.inverted_index t ∨ (t ∈ d ∧ i = m.documents.length)) := by
      simp only [add_document, List.mem_toFinset]
      by_cases ht : t ∈ d <;> simp [ht]
    rw [hidx, hlen]
    constructor
    · rintro ((hm | ⟨htd, rfl⟩) | ⟨j, w, hj, htw, rfl⟩)
      · exact Or.inl hm
      · exact Or.inr ⟨0, d, rfl, htd, by omega⟩
      · exact Or.inr ⟨j + 1, w, by simpa using hj, htw, by omega⟩
    · rintro (hm | ⟨j, w, hj, htw, rfl⟩)
      · exact Or.inl (Or.inl hm)
      · cases j with
        | zero =>
          simp only [List.get?_cons_zero, Option.some_inj] at hj
          subst hj
          exact Or.inl (Or.inr ⟨htw, by omega⟩)
        | succ j =>
          simp only [List.get?_cons_succ] at hj
          exact Or.inr ⟨j, w, hj, htw, by omega⟩

/-- Postings of the built model: a document id is in a term's postings set
iff that document's term list contains the term. -/
theorem buildInv_postings (docs : List (List String)) (t : String) (i : ℕ) :
    i ∈ (buildInv docs).inverted_index t ↔
      ∃ w, docs.get? i = some w ∧ t ∈ w := by
  unfold buildInv
  rw [buildInv_index_mem]
  constructor
  · rintro (h | ⟨j, w, hj, htw, hi⟩)
    · exact absurd h (by simp [InvertedListBooleanModel.emptyModel])
    · have hij : i = j := by
        simpa [InvertedListBooleanModel.emptyModel] using hi
      subst hij
      exact ⟨w, hj, htw⟩
  · rintro ⟨w, hi, htw⟩
    exact Or.inr ⟨i, w, hi, htw, by simp [InvertedListBooleanModel.emptyModel]⟩

/-- Claim C1: in the inverted-list boolean model built by `add_document`,
a single-term query evaluates to that term's postings set (the postings
set being exactly the ids of the documents containing the term, hence `∅`
for unknown terms); a flat conjunction evaluates to the left fold of
set-intersections of the postings, a flat disjunction to the left fold of
set-unions; `- t` evaluates to the universe of indexed ids minus `t`'s
postings; and an arbitrary flat operator sequence is applied strictly
left-to-right with no precedence distinction between AND and OR. -/
theorem C1_inverted_list_evaluation (docs : List (List String)) :
    (∀ t, evaluate_expression (buildInv docs).inverted_index
        (Finset.range (buildInv docs).documents.length) [Tok.term t] =
        some (Item.res ((buildInv docs).inverted_index t))) ∧
    (∀ t i, i ∈ (buildInv docs).inverted_index t ↔
        ∃ w, docs.get? i = some w ∧ t ∈ w) ∧
    (∀ t, (∀ w ∈ docs, t ∉ w) → (buildInv docs).inverted_index t = ∅) ∧
    (∀ (t : String) (ts : List String),
        evaluate_expression (buildInv docs).inverted_index
        (Finset.range (buildInv docs).documents.length)
        (flatTokens t (ts.map (fun u => (BOp.band, u)))) =
        some (Item.res
          (ts.foldl (fun a u => a ∩ (buildInv docs).inverted_index u)
            ((buildInv docs).inverted_index t)))) ∧
    (∀ (t : String) (ts : List String),
        evaluate_expression (buildInv docs).inverted_index
        (Finset.range (buildInv docs).documents.length)
        (flatTokens t (ts.map (fun u => (BOp.bor, u)))) =
        some (Item.res
          (ts.foldl (fun a u => a ∪ (buildInv docs).inverted_index u)
            ((buildInv docs).inverted_index t)))) ∧
    (∀ t, evaluate_expression (buildInv docs).inverted_index
        (Finset.range (buildInv docs).documents.length)
        [Tok.dash, Tok.term t] =
        some (Item.res (Finset.range (buildInv docs).documents.length \
          (buildInv docs).inverted_index t))) ∧
    (∀ t rest, evaluate_expression (buildInv docs).inverted_index
        (Finset.range (buildInv docs).documents.length) (flatTokens t rest) =
        some (Item.res
          (rest.foldl
            (fun a p => applyOp a p.1 ((buildInv docs).inverted_index p.2))
            ((buildInv docs).inverted_index t)))) := by
  refine ⟨fun t => ?_, fun t i => buildInv_postings docs t i, fun t ht => ?_,
    fun t ts => ?_, fun t ts => ?_, fun t => rfl, fun t rest => evaluate_flat _ _ t rest⟩
  · simpa using evaluate_flat (buildInv docs).inverted_index
      (Finset.range (buildInv docs).documents.length) t []
  · ext i
    simp only [buildInv_postings, Finset.not_mem_empty, iff_false, not_exists]
    intro w hw
    obtain ⟨hw, htw⟩ := hw
    exact ht w (List.get?_mem hw) htw
  · rw [evaluate_flat]
    simp [List.foldl_map, applyOp]
  · rw [evaluate_flat]
    simp [List.foldl_map, applyOp]

/-- Witness for claim C1: the left-to-right evaluation clause applied to
the concrete collection `[["a"], ["a", "b"]]` and the query `a & b`. -/
theorem C1_inverted_list_evaluation_witness :
    evaluate_expression (buildInv [["a"], ["a", "b"]]).inverted_index
      (Finset.range (buildInv [["a"], ["a", "b"]]).documents.length)
      (flatTokens "a" [(BOp.band, "b")]) =
      some (Item.res
        ([(BOp.band, "b")].foldl
          (fun a p => applyOp a p.1 ((buildInv [["a"], ["a", "b"]]).inverted_index p.2))
          ((buildInv [["a"], ["a", "b"]]).inverted_index "a"))) :=
  (C1_inverted_list_evaluation [["a"], ["a", "b"]]).2.2.2.2.2.2 "a" [(BOp.band, "b")]

/-- Claim C6, counterexample: malformed queries with unbalanced parentheses
do NOT surface a parse error — on the model built from `[["a"]]`, the
token lists of `( a` (unmatched opening parenthesis) and `a ) b`
(unmatched closing parenthesis) both evaluate without error to the result
set `{0}`. -/
theorem C6_unbalanced_parens_not_error :
    evaluate_expression (buildInv [["a"]]).inverted_index (Finset.range 1)
      [Tok.lparen, Tok.term "a"] = some (Item.res {0}) ∧
    evaluate_expression (buildInv [["a"]]).inverted_index (Finset.range 1)
      [Tok.term "a", Tok.rparen, Tok.term "b"] = some (Item.res {0}) := by
  decide

/-- Claim C6 (amended): the evaluator raises an uncaught `IndexError`
(modelled by `none`) for an empty token list, for a dangling trailing
operator `&` or `|`, and for `NOT` without an operand — but queries with
unbalanced parentheses are silently evaluated (an unmatched `(` acts as a
group closed at the end of input; tokens after an unmatched `)` are
ignored), and a leading operator is returned as a marker value rather
than raising a parse error during evaluation. -/
theorem C6_error_surfacing (idx : String → Finset ℕ) (U : Finset ℕ)
    (t u : String) :
    evaluate_expression idx U [] = none ∧
    evaluate_expression idx U [Tok.term t, Tok.amp] = none ∧
    evaluate_expression idx U [Tok.term t, Tok.bar] = none ∧
    evaluate_expression idx U [Tok.term t, Tok.dash] = none ∧
    evaluate_expression idx U [Tok.dash] = none ∧
    evaluate_expression idx U [Tok.lparen, Tok.term t] = some (Item.res (idx t)) ∧
    evaluate_expression idx U [Tok.term t, Tok.rparen, Tok.term u] =
      some (Item.res (idx t)) ∧
    evaluate_expression idx U [Tok.amp, Tok.term t] = some Item.opAnd :=
  ⟨rfl, rfl, rfl, rfl, rfl, rfl, rfl, rfl⟩

/-- Witness for claim C6 (amended), at a concrete index and terms. -/
theorem C6_error_surfacing_witness :
    evaluate_expression (fun _ => (∅ : Finset ℕ)) ∅ [] = none ∧
    evaluate_expression (fun _ => (∅ : Finset ℕ)) ∅ [Tok.term "a", Tok.amp] = none ∧
    evaluate_expression (fun _ => (∅ : Finset ℕ)) ∅ [Tok.term "a", Tok.bar] = none ∧
    evaluate_expression (fun _ => (∅ : Finset ℕ)) ∅ [Tok.term "a", Tok.dash] = none ∧
    evaluate_expression (fun _ => (∅ : Finset ℕ)) ∅ [Tok.dash] = none ∧
    evaluate_expression (fun _ => (∅ : Finset ℕ)) ∅ [Tok.lparen, Tok.term "a"] =
      some (Item.res ((fun _ => (∅ : Finset ℕ)) "a")) ∧
    evaluate_expression (fun _ => (∅ : Finset ℕ)) ∅
      [Tok.term "a", Tok.rparen, Tok.term "b"] =
      some (Item.res ((fun _ => (∅ : Finset ℕ)) "a")) ∧
    evaluate_expression (fun _ => (∅ : Finset ℕ)) ∅ [Tok.amp, Tok.term "a"] =
      some Item.opAnd :=
  C6_error_surfacing (fun _ => ∅) ∅ "a" "b"

/-! ## Signature-based boolean model (`models.py`, `SignatureBasedBooleanModel`) -/

/-- A document as consumed by the signature model: its id and term list. -/
structure SigDoc where
  document_id : ℕ
  terms : List String
deriving DecidableEq

/-- Embeds the per-term mini-signature built inside `_generate_signature`:
a list of `signature_length` bits with the sampled positions set.  The
source derives the set of active positions from
`random.sample(range(signature_length), m)` seeded with an MD5-based hash
of the term — a fixed, reproducible function of the term, abstracted here
as the parameter `activeBits` (`random.sample` guarantees all positions
are below `L`; positions outside that range cannot occur and are ignored
by this construction). -/
def miniSignature (activeBits : String → Finset ℕ) (L : ℕ) (t : String) :
    List Bool :=
  (List.range L).map (fun i => decide (i ∈ activeBits t))

/-- Bitwise OR of two blocks (`[a | b for a, b in zip(block, single_block)]`). -/
def orBits (a b : List Bool) : List Bool := List.zipWith or a b

/-- Splits a term list into consecutive chunks of `k` terms, mirroring the
slices `terms[i:i+k]` for `i in range(0, len(terms), k)`.  `cur` holds the
current chunk reversed and `n` its remaining capacity, so the recursion is
structural on the list.  Faithful for `k ≥ 1`; the model always uses
`k = num_hash_functions = 4` (`range` with step 0 would raise in the
source). -/
def chunkGo {α : Type} (k : ℕ) (cur : List α) (n : ℕ) : List α → List (List α)
  | [] => if cur.isEmpty then [] else [cur.reverse]
  | x :: xs =>
    match n with
    | 0 => cur.reverse :: chunkGo k [x] (k - 1) xs
    | m + 1 => chunkGo k (x :: cur) m xs

/-- The list of `k`-term chunks of a term list. -/
def chunkList {α : Type} (k : ℕ) (l : List α) : List (List α) :=
  chunkGo k [] k l

/-- Embeds the block construction of `_generate_signature`: the bitwise OR
of the chunk members' mini-signatures over an all-zero block. -/
def blockSig (activeBits : String → Finset ℕ) (L : ℕ) (chunk : List String) :
    List Bool :=
  chunk.foldl (fun acc t => orBits acc (miniSignature activeBits L t))
    (List.replicate L false)

/-- Embeds `_generate_signature`: one block signature per chunk of `k`
consecutive terms. -/
def generate_signature (activeBits : String → Finset ℕ) (L k : ℕ)
    (terms : List String) : List (List Bool) :=
  (chunkList k terms).map (blockSig activeBits L)

/-- Embeds `SignatureBasedBooleanModel.document_to_representation` on a
collection: the dict from document id to block-signature list, with terms
lower-cased first (stopword filtering and stemming flags are handled by
external collaborators and are off here). -/
def sigDocRep (activeBits : String → Finset ℕ) (L k : ℕ)
    (docs : List SigDoc) : List (ℕ × List (List Bool)) :=
  docs.map (fun d =>
    (d.document_id, generate_signature activeBits L k (d.terms.map lowerStr)))

/-- The keys of the model's `term_hash` dict after the collection has been
indexed: every lower-cased term of every document. -/
def seenTerms (docs : List SigDoc) : List String :=
  docs.flatMap (fun d => d.terms.map lowerStr)

/-- Embeds `SignatureBasedBooleanModel.query_to_representation`: the
stored mini-signature for a seen term (`term_hash[term]` always equals the
term's mini-signature, the sampling being a function of the term), and the
empty bit list for a term never seen during indexing. -/
def sig_query_to_representation (activeBits : String → Finset ℕ) (L : ℕ)
    (seen : List String) (q : String) : List Bool :=
  if q ∈ seen then miniSignature activeBits L q else []

/-- Embeds the block-containment test of `search`:
`[query_bits[i] & single_block[i] for i in range(len(query_bits))] == query_bits`
(for the reachable inputs the query signature is never longer than a
block, so the truncating `zipWith` agrees with the source's indexing). -/
def andMatch (q blk : List Bool) : Bool :=
  decide (List.zipWith and q blk = q)

/-- Embeds `SignatureBasedBooleanModel.search`: every document one of
whose blocks contains all the query bits (the source appends the id and
breaks at the first matching block). -/
def search (q : List Bool) (docSig : List (ℕ × List (List Bool))) : List ℕ :=
  docSig.filterMap
    (fun p => if p.2.any (fun blk => andMatch q blk) then some p.1 else none)

/-- Models `list(set(a) | set(b))` (the iteration order of a Python set is
unspecified; first-occurrence order is one concrete choice). -/
def listUnion (a b : List ℕ) : List ℕ := (a ++ b).eraseDups

/-- One iteration of the inner while loop of
`SignatureBasedBooleanModel.match`: if `'&'` is among the pending
operators, pop two signatures, push their bitwise AND and search with the
bottom of the stack; then, if `'|'` is among the pending operators, pop
two signatures and take the union of their search results.  `none` models
`IndexError` from popping a too-short stack. -/
def sigWhileIter (rep : List (ℕ × List (List Bool)))
    (stack : List (List Bool)) (ops : List String) (docIds : List ℕ) :
    Option (List (List Bool) × List ℕ) :=
  (match (if "&" ∈ ops then
            match stack with
            | op1 :: op2 :: rest =>
              some ((List.zipWith and op1 op2) :: rest)
            | _ => none
          else some stack) with
   | none => none
   | some st1 =>
     let ids1 := if "&" ∈ ops then search (st1.getLastD []) rep else docIds
     if "|" ∈ ops then
       match st1 with
       | o1 :: o2 :: rest =>
         some (rest, listUnion (search o1 rep) (search o2 rep))
       | _ => none
     else some (st1, ids1))

/-- The inner while loop (`while len(stack) > 1 and operators`), fueled;
each iteration strictly shrinks the stack, so the fuel
`sig_match` supplies can never run out. -/
def sigWhile (rep : List (ℕ × List (List Bool))) :
    ℕ → List (List Bool) → List String → List ℕ →
    Option (List (List Bool) × List ℕ)
  | 0, _, _, _ => none
  | f + 1, stack, ops, docIds =>
    if stack.length > 1 ∧ ops ≠ [] then
      match sigWhileIter rep stack ops docIds with
      | none => none
      | some (st1, ids1) => sigWhile rep f st1 ops ids1
    else some (stack, docIds)

/-- The token loop of `SignatureBasedBooleanModel.match`: operators are
appended to `operators`; any other token is converted by
`query_to_representation` and pushed, after which the inner while loop
runs.  Returns the final `(operators, stack, doc_ids)`. -/
def sigMatchGo (activeBits : String → Finset ℕ) (L : ℕ) (seen : List String)
    (rep : List (ℕ × List (List Bool))) :
    List String → List (List Bool) → List String → List ℕ →
    Option (List String × List (List Bool) × List ℕ)
  | [], stack, ops, docIds => some (ops, stack, docIds)
  | tok :: rest, stack, ops, docIds =>
    if tok = "&" ∨ tok = "|" then
      sigMatchGo activeBits L seen rep rest stack (ops ++ [tok]) docIds
    else
      match sigWhile rep (stack.length + 2)
          (sig_query_to_representation activeBits L seen tok :: stack) ops
          docIds with
      | none => none
      | some (st1, ids1) => sigMatchGo activeBits L seen rep rest st1 ops ids1

/-- Embeds `SignatureBasedBooleanModel.match` on an already tokenized
query (the source tokenizes its query string with
`re.split(r'(\(|\)|&|-|\|)', …)`; only `&` and `|` are treated as
operators).  When no operator was seen, the top of the stack is popped
and searched (`IndexError`, hence `none`, on an empty query); otherwise
the `doc_ids` accumulated by the while loop are returned. -/
def sig_match (activeBits : String → Finset ℕ) (L k : ℕ)
    (docs : List SigDoc) (tokens : List String) : Option (List ℕ) :=
  match sigMatchGo activeBits L (seenTerms docs) (sigDocRep activeBits L k docs)
      tokens [] [] [] with
  | none => none
  | some (ops, stack, docIds) =>
    if ops = [] then
      match stack with
      | top :: _ => some (search top (sigDocRep activeBits L k docs))
      | [] => none
    else some docIds

/-- Pointwise implication between bit lists of equal length: every set bit
of the first is set in the second. -/
def bitsLe : List Bool → List Bool → Prop
  | [], [] => True
  | a :: as, b :: bs => (a = true → b = true) ∧ bitsLe as bs
  | _, _ => False

theorem zipWith_and_of_bitsLe :
    ∀ (a b : List Bool), bitsLe a b → List.zipWith and a b = a := by
  intro a
  induction a with
  | nil =>
    intro b h
    cases b with
    | nil => rfl
    | cons y bs => exact absurd h (by simp [bitsLe])
  | cons x as ih =>
    intro b h
    cases b with
    | nil => exact absurd h (by simp [bitsLe])
    | cons y bs =>
      obtain ⟨hxy, htail⟩ := h
      simp only [List.zipWith_cons_cons, List.cons.injEq]
      refine ⟨?_, ih bs htail⟩
      cases x with
      | false => rfl
      | true => simp [hxy rfl]

theorem bitsLe_or_self :
    ∀ (a b : List Bool), a.length = b.length →
      bitsLe a (List.zipWith or b a) := by
  intro a
  induction a with
  | nil =>
    intro b h
    cases b with
    | nil => trivial
    | cons y bs => simp at h
  | cons x as ih =>
    intro b h
    cases b with
    | nil => simp at h
    | cons y bs =>
      simp only [List.length_cons, Nat.add_right_cancel_iff] at h
      exact ⟨fun hx => by simp [hx], ih bs h⟩

theorem bitsLe_or_mono :
    ∀ (a b c : List Bool), bitsLe a b → b.length = c.length →
      bitsLe a (List.zipWith or b c) := by
  intro a
  induction a with
  | nil =>
    intro b c h hlen
    cases b with
    | nil => cases c with
      | nil => trivial
      | cons z cs => simp at hlen
    | cons y bs => exact absurd h (by simp [bitsLe])
  | cons x as ih =>
    intro b c h hlen
    cases b with
    | nil => exact absurd h (by simp [bitsLe])
    | cons y bs =>
      cases c with
      | nil => simp at hlen
      | cons z cs =>
        obtain ⟨hxy, htail⟩ := h
        simp only [List.length_cons, Nat.add_right_cancel_iff] at hlen
        exact ⟨fun hx => by simp [hxy hx], ih bs cs htail hlen⟩

theorem length_miniSignature (activeBits : String → Finset ℕ) (L : ℕ)
    (t : String) : (miniSignature activeBits L t).length = L := by
  simp [miniSignature]

theorem length_orBits (a b : List Bool) (L : ℕ) (ha : a.length = L)
    (hb : b.length = L) : (orBits a b).length = L := by
  simp [orBits, ha, hb]

theorem bitsLe_foldl_preserve (activeBits : String → Finset ℕ) (L : ℕ) :
    ∀ (chunk : List String) (a acc : List Bool), acc.length = L →
      bitsLe a acc →
      bitsLe a (chunk.foldl
        (fun acc t => orBits acc (miniSignature activeBits L t)) acc) := by
  intro chunk
  induction chunk with
  | nil => intro a acc _ h; exact h
  | cons u us ih =>
    intro a acc hlen h
    simp only [List.foldl_cons]
    exact ih a _ (length_orBits _ _ L hlen (length_miniSignature _ _ _))
      (bitsLe_or_mono a acc _ h (by rw [hlen, length_miniSignature]))

theorem bitsLe_blockSig (activeBits : String → Finset ℕ) (L : ℕ) :
    ∀ (chunk : List String) (t : String) (acc : List Bool),
      acc.length = L → t ∈ chunk →
      bitsLe (miniSignature activeBits L t)
        (chunk.foldl
          (fun acc u => orBits acc (miniSignature activeBits L u)) acc) := by
  intro chunk
  induction chunk with
  | nil => intro t acc _ hmem; simp at hmem
  | cons u us ih =>
    intro t acc hlen hmem
    simp only [List.foldl_cons]
    have hlen1 : (orBits acc (miniSignature activeBits L u)).length = L :=
      length_orBits _ _ L hlen (length_miniSignature _ _ _)
    rcases List.mem_cons.mp hmem with rfl | hmem
    · exact bitsLe_foldl_preserve activeBits L us _ _ hlen1
        (bitsLe_or_self _ acc (by rw [length_miniSignature, hlen]))
    · exact ih t _ hlen1 hmem

theorem chunkGo_mem {α : Type} (k : ℕ) :
    ∀ (l cur : List α) (n : ℕ) (x : α), (x ∈ cur ∨ x ∈ l) →
      ∃ c ∈ chunkGo k cur n l, x ∈ c := by
  intro l
  induction l with
  | nil =>
    intro cur n x hx
    rcases hx with hx | hx
    · cases cur with
      | nil => simp at hx
      | cons y ys =>
        exact ⟨(y :: ys).reverse, by simp [chunkGo],
          by rw [List.mem_reverse]; exact hx⟩
    · simp at hx
  | cons y ys ih =>
    intro cur n x hx
    cases n with
    | zero =>
      rcases hx with hx | hx
      · exact ⟨cur.reverse, by simp [chunkGo], by rw [List.mem_reverse]; exact hx⟩
      · rcases List.mem_cons.mp hx with rfl | hx
        · obtain ⟨c, hc, hxc⟩ := ih [x] (k - 1) x (Or.inl (by simp))
          exact ⟨c, by simp [chunkGo, hc], hxc⟩
        · obtain ⟨c, hc, hxc⟩ := ih [y] (k - 1) x (Or.inr hx)
          exact ⟨c, by simp [chunkGo, hc], hxc⟩
    | succ m =>
      rcases hx with hx | hx
      · exact ih (y :: cur) m x (Or.inl (by simp [hx]))
      · rcases List.mem_cons.mp hx with rfl | hx
        · exact ih (x :: cur) m x (Or.inl (by simp))
        · exact ih (y :: cur) m x (Or.inr hx)

theorem chunkList_mem {α : Type} (k : ℕ) (l : List α) (x : α) (hx : x ∈ l) :
    ∃ c ∈ chunkList k l, x ∈ c :=
  chunkGo_mem k l [] k x (Or.inr hx)

theorem sig_match_single (activeBits : String → Finset ℕ) (L k : ℕ)
    (docs : List SigDoc) (t : String) (h1 : t ≠ "&") (h2 : t ≠ "|") :
    sig_match activeBits L k docs [t] =
      some (search
        (sig_query_to_representation activeBits L (seenTerms docs) t)
        (sigDocRep activeBits L k docs)) := by
  simp [sig_match, sigMatchGo, sigWhile, h1, h2]

theorem mem_search (q : List Bool) (rep : List (ℕ × List (List Bool)))
    (i : ℕ) (blocks : List (List Bool)) (hmem : (i, blocks) ∈ rep)
    (hblk : ∃ blk ∈ blocks, andMatch q blk = true) :
    i ∈ search q rep := by
  obtain ⟨blk, hb, hm⟩ := hblk
  refine List.mem_filterMap.mpr ⟨(i, blocks), hmem, ?_⟩
  rw [if_pos]
  exact List.any_eq_true.mpr ⟨blk, hb, hm⟩

/-- Claim C2: in the signature model, for every indexed document `d` and
every term `t` of its lower-cased term list, some block of `d`'s signature
ANDed with `t`'s mini-signature equals the mini-signature, and `match` on
the single-term query `t` returns a document-id list containing
`d.document_id` — no false negatives.  (The bit-sampling function is
universally quantified, covering the source's hash-seeded sampling.) -/
theorem C2_signature_no_false_negatives (activeBits : String → Finset ℕ)
    (L k : ℕ) (docs : List SigDoc) (d : SigDoc) (t : String)
    (hd : d ∈ docs) (ht : t ∈ d.terms.map lowerStr)
    (h1 : t ≠ "&") (h2 : t ≠ "|") :
    (∃ blk ∈ generate_signature activeBits L k (d.terms.map lowerStr),
        List.zipWith and (miniSignature activeBits L t) blk =
          miniSignature activeBits L t) ∧
    (∃ ids, sig_match activeBits L k docs [t] = some ids ∧
        d.document_id ∈ ids) := by
  obtain ⟨c, hc, htc⟩ := chunkList_mem k (d.terms.map lowerStr) t ht
  have hblk : bitsLe (miniSignature activeBits L t) (blockSig activeBits L c) :=
    bitsLe_blockSig activeBits L c t _ (by simp) htc
  have hand : List.zipWith and (miniSignature activeBits L t)
      (blockSig activeBits L c) = miniSignature activeBits L t :=
    zipWith_and_of_bitsLe _ _ hblk
  constructor
  · exact ⟨blockSig activeBits L c,
      List.mem_map.mpr ⟨c, hc, rfl⟩, hand⟩
  · refine ⟨search (sig_query_to_representation activeBits L (seenTerms docs) t)
        (sigDocRep activeBits L k docs),
      sig_match_single activeBits L k docs t h1 h2, ?_⟩
    have hseen : t ∈ seenTerms docs :=
      List.mem_flatMap.mpr ⟨d, hd, ht⟩
    rw [sig_query_to_representation, if_pos hseen]
    refine mem_search _ _ d.document_id
      (generate_signature activeBits L k (d.terms.map lowerStr))
      (List.mem_map.mpr ⟨d, hd, rfl⟩) ?_
    exact ⟨blockSig activeBits L c, List.mem_map.mpr ⟨c, hc, rfl⟩,
      by simp [andMatch, hand]⟩

/-- Witness for claim C2: the collection `[⟨0, ["a"]⟩]`, term `"a"`, with
two active bits out of a four-bit signature. -/
theorem C2_signature_no_false_negatives_witness :
    ((⟨0, ["a"]⟩ : SigDoc) ∈ ([⟨0, ["a"]⟩] : List SigDoc) ∧
      "a" ∈ ((["a"] : List String).map lowerStr)) ∧
    ((∃ blk ∈ generate_signature (fun _ => ({0, 2} : Finset ℕ)) 4 4
          ((["a"] : List String).map lowerStr),
        List.zipWith and (miniSignature (fun _ => ({0, 2} : Finset ℕ)) 4 "a") blk =
          miniSignature (fun _ => ({0, 2} : Finset ℕ)) 4 "a") ∧
      (∃ ids, sig_match (fun _ => ({0, 2} : Finset ℕ)) 4 4
            ([⟨0, ["a"]⟩] : List SigDoc) ["a"] = some ids ∧
          (⟨0, ["a"]⟩ : SigDoc).document_id ∈ ids)) :=
  ⟨⟨by decide, by decide⟩,
    C2_signature_no_false_negatives (fun _ => ({0, 2} : Finset ℕ)) 4 4
      [⟨0, ["a"]⟩] ⟨0, ["a"]⟩ "a" (by decide) (by decide) (by decide) (by decide)⟩

theorem andMatch_nil (blk : List Bool) : andMatch [] blk = true := by
  simp [andMatch]

theorem chunkGo_ne_nil {α : Type} (k : ℕ) :
    ∀ (l cur : List α) (n : ℕ), cur ≠ [] → chunkGo k cur n l ≠ [] := by
  intro l
  induction l with
  | nil =>
    intro cur n hcur
    cases cur with
    | nil => exact absurd rfl hcur
    | cons y ys => simp [chunkGo]
  | cons y ys ih =>
    intro cur n hcur
    cases n with
    | zero => simp [chunkGo]
    | succ m => exact ih (y :: cur) m (by simp)

theorem generate_signature_ne_nil (activeBits : String → Finset ℕ)
    (L k : ℕ) (ts : List String) (h : ts ≠ []) :
    generate_signature activeBits L k ts ≠ [] := by
  cases ts with
  | nil => exact absurd rfl h
  | cons x xs =>
    have : chunkList k (x :: xs) ≠ [] := by
      unfold chunkList
      cases k with
      | zero => simp [chunkGo]
      | succ m => exact chunkGo_ne_nil (m + 1) xs [x] m (by simp)
    simpa [generate_signature] using this

theorem search_nil_query (activeBits : String → Finset ℕ) (L k : ℕ)
    (docs : List SigDoc) :
    search [] (sigDocRep activeBits L k docs) =
      (docs.filter (fun d => !(d.terms.isEmpty))).map
        (fun d => d.document_id) := by
  unfold search sigDocRep
  rw [List.filterMap_map]
  induction docs with
  | nil => rfl
  | cons d ds ih =>
    rw [List.filter_cons]
    by_cases hd : d.terms = []
    · have h0 : generate_signature activeBits L k (d.terms.map lowerStr) = [] := by
        rw [hd]; rfl
      have hfd : ((fun p => if (p.2.any fun blk => andMatch [] blk) = true
            then some p.1 else none) ∘
          (fun d => (d.document_id,
            generate_signature activeBits L k (d.terms.map lowerStr)))) d = none := by
        simp only [Function.comp_apply, h0]
        rfl
      have hne : (!(d.terms.isEmpty)) = false := by rw [hd]; rfl
      rw [List.filterMap_cons_none hfd, if_neg (by rw [hne]; exact Bool.false_ne_true),
        ih]
    · obtain ⟨b, bs, hbs⟩ :=
        List.exists_cons_of_ne_nil
          (generate_signature_ne_nil activeBits L k (d.terms.map lowerStr)
            (by simpa using hd))
      have hfd : ((fun p => if (p.2.any fun blk => andMatch [] blk) = true
            then some p.1 else none) ∘
          (fun d => (d.document_id,
            generate_signature activeBits L k (d.terms.map lowerStr)))) d =
          some d.document_id := by
        simp only [Function.comp_apply, hbs]
        rw [if_pos]
        simp [andMatch_nil]
      have hne : (!(d.terms.isEmpty)) = true := by
        cases h : d.terms with
        | nil => exact absurd h hd
        | cons a as => rfl
      rw [List.filterMap_cons_some hfd, if_pos hne, List.map_cons, ih]

/-- Claim C10, counterexample: a document with an empty term list is
indexed (it has an entry in the signature dict) but possesses no blocks,
so the vacuous block-containment test never fires for it: querying an
unknown term over the collection `[⟨0, []⟩]` returns `[]`, not the list
of all indexed document ids. -/
theorem C10_empty_doc_not_matched :
    sig_query_to_representation (fun _ => ({0} : Finset ℕ)) 4
      (seenTerms [⟨0, ([] : List String)⟩]) "zzz" = [] ∧
    sigDocRep (fun _ => ({0} : Finset ℕ)) 4 4 [⟨0, []⟩] = [(0, [])] ∧
    sig_match (fun _ => ({0} : Finset ℕ)) 4 4 [⟨0, []⟩] ["zzz"] = some [] := by
  decide

/-- Claim C10 (amended): for a term never seen during index construction,
`query_to_representation` returns the empty bit list, and `match` on that
single-term query succeeds on every indexed document that has at least one
block — i.e. it returns, in index order, the ids of exactly those indexed
documents whose term list is nonempty (a document with no terms has no
blocks, so the otherwise vacuously true containment test never fires for
it). -/
theorem C10_unknown_term_matches_all (activeBits : String → Finset ℕ)
    (L k : ℕ) (docs : List SigDoc) (q : String)
    (hq : q ∉ seenTerms docs) (h1 : q ≠ "&") (h2 : q ≠ "|") :
    sig_query_to_representation activeBits L (seenTerms docs) q = [] ∧
    sig_match activeBits L k docs [q] =
      some ((docs.filter (fun d => !(d.terms.isEmpty))).map
        (fun d => d.document_id)) := by
  have hrep : sig_query_to_representation activeBits L (seenTerms docs) q = [] :=
    if_neg hq
  refine ⟨hrep, ?_⟩
  rw [sig_match_single activeBits L k docs q h1 h2, hrep,
    search_nil_query]

/-- Witness for claim C10 (amended): unknown term `"zzz"` over a
two-document collection, one document having no terms. -/
theorem C10_unknown_term_matches_all_witness :
    ("zzz" ∉ seenTerms [⟨0, ["a"]⟩, ⟨1, ([] : List String)⟩]) ∧
    (sig_query_to_representation (fun _ => ({0} : Finset ℕ)) 4
        (seenTerms [⟨0, ["a"]⟩, ⟨1, ([] : List String)⟩]) "zzz" = [] ∧
      sig_match (fun _ => ({0} : Finset ℕ)) 4 4
          [⟨0, ["a"]⟩, ⟨1, ([] : List String)⟩] ["zzz"] =
        some ((([⟨0, ["a"]⟩, ⟨1, ([] : List String)⟩] : List SigDoc).filter
            (fun d => !(d.terms.isEmpty))).map (fun d => d.document_id))) :=
  ⟨by decide,
    C10_unknown_term_matches_all (fun _ => ({0} : Finset ℕ)) 4 4
      [⟨0, ["a"]⟩, ⟨1, ([] : List String)⟩] "zzz" (by decide) (by decide)
      (by decide)⟩

/-! ## Vector space model (`models.py`, `VectorSpaceModel`)

Python floats are idealised as real numbers (`math.log` as `Real.log`,
`math.sqrt` as `Real.sqrt`, `round(x, 3)` as rounding of `1000 * x` to the
nearest integer); dicts keyed by terms are pairs of a key list and a value
function. -/

/-- A document as consumed by the vector space model. -/
structure VSDoc where
  document_id : ℕ
  terms : List String
deriving DecidableEq

/-- State of `VectorSpaceModel`: `total_docs` (hard-coded to `82` in
`__init__` and never updated), the index key list, and the postings
`index[term] = [(doc_id, raw term frequency), …]` (the function returns
`[]` for absent keys; `keys` records actual dict membership). -/
structure VSState where
  total_docs : ℕ
  keys : List String
  post : String → List (ℕ × ℕ)

/-- The freshly constructed model: `self.total_docs = 82`,
`self.index = {}`. -/
def vsInit : VSState :=
  ⟨82, [], fun _ => []⟩

/-- Embeds one document's pass of `document_to_representation`: terms are
lower-cased, counted (`Counter`), and for each distinct term an entry
`(doc_id, count)` is appended to its postings list (creating the key if
absent). -/
def vsAddDoc (st : VSState) (d : VSDoc) : VSState where
  total_docs := st.total_docs
  keys := st.keys ++ ((d.terms.map lowerStr).dedup.filter (fun t => !(st.keys.contains t)))
  post := fun t =>
    if t ∈ d.terms.map lowerStr then
      st.post t ++ [(d.document_id, (d.terms.map lowerStr).count t)]
    else st.post t

/-- Embeds `VectorSpaceModel.document_to_representation` over a whole
collection, starting from the fresh model. -/
def vsBuild (docs : List VSDoc) : VSState :=
  docs.foldl vsAddDoc vsInit

/-- Embeds `get_term_frequencey`: scan the postings of `t`, keeping the
frequency of the last entry whose id matches (0 when none does). -/
def get_term_frequencey (st : VSState) (t : String) (doc_id : ℕ) : ℕ :=
  (st.post t).foldl (fun tf p => if p.1 = doc_id then p.2 else tf) 0

/-- Embeds `get_overall_term_freq`: document frequency of a term, i.e.
the length of its postings list when the term is an index key, 0
otherwise. -/
def get_overall_term_freq (st : VSState) (t : String) : ℕ :=
  if st.keys.contains t then (st.post t).length else 0

/-- Embeds `calculated_idf`: `log(total_docs / df)` when `df ≠ 0`, else
the initial value 0.  Note `total_docs` is the constant 82 from
`__init__`, not the number of documents actually indexed. -/
noncomputable def calculated_idf (st : VSState) (t : String) : ℝ :=
  if get_overall_term_freq st t ≠ 0 then
    Real.log ((st.total_docs : ℝ) / (get_overall_term_freq st t : ℝ))
  else 0

/-- Embeds `calculate_tfidf`: raw term frequency times idf. -/
noncomputable def calculate_tfidf (st : VSState) (t : String) (doc_id : ℕ) : ℝ :=
  (get_term_frequencey st t doc_id : ℝ) * calculated_idf st t

/-- A Python dict from terms to float weights: its key list (distinct
keys) and its value function. -/
structure PyDict where
  keys : List String
  val : String → ℝ

/-- Embeds `vector_calculation`: the document vector over ALL index
terms. -/
noncomputable def vector_calculation (st : VSState) (doc_id : ℕ) : PyDict :=
  ⟨st.keys, fun t => calculate_tfidf st t doc_id⟩

/-- Embeds `VectorSpaceModel.query_to_representation`: split on single
spaces, lower-case, and map each distinct term to
`(count / query length) * idf`. -/
noncomputable def vs_query_to_representation (st : VSState) (q : String) : PyDict :=
  ⟨((q.splitOn " ").map lowerStr).dedup,
   fun t => ((((q.splitOn " ").map lowerStr).count t : ℝ) /
       (((q.splitOn " ").map lowerStr).length : ℝ)) * calculated_idf st t⟩

/-- Embeds the dot product of `cosine_similarity`:
`sum(vec1[term] * vec2.get(term, 0) for term in vec1)`. -/
noncomputable def dotProduct (v1 v2 : PyDict) : ℝ :=
  (v1.keys.map (fun t => v1.val t * (if t ∈ v2.keys then v2.val t else 0))).sum

/-- Embeds the norms of `cosine_similarity`:
`math.sqrt(sum(v**2 for v in vec.values()))`. -/
noncomputable def pyNorm (v : PyDict) : ℝ :=
  Real.sqrt ((v.keys.map (fun t => v.val t ^ 2)).sum)

/-- Embeds `cosine_similarity`: 0.0 when either norm is zero, otherwise
the normalised dot product. -/
noncomputable def cosine_similarity (v1 v2 : PyDict) : ℝ :=
  if pyNorm v1 = 0 ∨ pyNorm v2 = 0 then 0
  else dotProduct v1 v2 / (pyNorm v1 * pyNorm v2)

/-- Embeds `round(x, 3)` on reals: the nearest multiple of `1/1000`
(Python's float banker's rounding differs only at exact half-thousandths,
which the idealisation to reals does not track). -/
noncomputable def rnd3 (x : ℝ) : ℝ :=
  (round (x * 1000) : ℤ) / 1000

/-- Similarity computed by `match` for one document: the query vector
against the document vector computed on demand. -/
noncomputable def vsSim (st : VSState) (qv : PyDict) (d : VSDoc) : ℝ :=
  cosine_similarity qv (vector_calculation st d.document_id)

/-- Python dict assignment `scores[key] = v` on an association list kept
in insertion order: overwrite in place if the key exists, else append. -/
noncomputable def dictInsert (l : List (ℕ × ℝ)) (key : ℕ) (v : ℝ) :
    List (ℕ × ℝ) :=
  if l.any (fun p => p.1 = key) then
    l.map (fun p => if p.1 = key then (key, v) else p)
  else l ++ [(key, v)]

/-- One document's step of `match`'s scoring loop:
`if similarity > 0: document_scores[doc_id] = round(similarity, 3)`. -/
noncomputable def vsScoreStep (st : VSState) (qv : PyDict)
    (acc : List (ℕ × ℝ)) (d : VSDoc) : List (ℕ × ℝ) :=
  if 0 < vsSim st qv d then
    dictInsert acc d.document_id (rnd3 (vsSim st qv d))
  else acc

/-- The `document_scores` dict built by `match`, as an insertion-ordered
association list. -/
noncomputable def vsScores (st : VSState) (qv : PyDict) (docs : List VSDoc) :
    List (ℕ × ℝ) :=
  docs.foldl (vsScoreStep st qv) []

/-- The comparison used to model
`sorted(scores.items(), key=lambda item: item[1], reverse=True)`:
descending by score.  Python's `sorted` is a stable mergesort, embedded
with `List.mergeSort`. -/
noncomputable def scoreLe (p q : ℕ × ℝ) : Bool :=
  decide (q.2 ≤ p.2)

/-- Embeds `VectorSpaceModel.match`: score every document of the
collection, keep the positive similarities rounded to three digits, and
stable-sort descending by similarity. -/
noncomputable def vs_match (st : VSState) (docs : List VSDoc) (qv : PyDict) :
    List (ℕ × ℝ) :=
  (vsScores st qv docs).mergeSort scoreLe

theorem vsBuild_total_docs :
    ∀ (docs : List VSDoc) (st : VSState),
      (docs.foldl vsAddDoc st).total_docs = st.total_docs := by
  intro docs
  induction docs with
  | nil => intro st; rfl
  | cons d ds ih => intro st; rw [List.foldl_cons, ih]; rfl

/-- The postings entry a document contributes to term `t` (helper for
stating the effect of the index build). -/
def vsPostEntry (t : String) (d : VSDoc) : Option (ℕ × ℕ) :=
  if t ∈ d.terms.map lowerStr then
    some (d.document_id, (d.terms.map lowerStr).count t)
  else none

theorem vsBuild_post :
    ∀ (docs : List VSDoc) (st : VSState) (t : String),
      (docs.foldl vsAddDoc st).post t =
        st.post t ++ docs.filterMap (vsPostEntry t) := by
  intro docs
  induction docs with
  | nil => intro st t; simp
  | cons d ds ih =>
    intro st t
    rw [List.foldl_cons, ih]
    by_cases htd : t ∈ d.terms.map lowerStr
    · rw [List.filterMap_cons_some
        (show vsPostEntry t d =
            some (d.document_id, (d.terms.map lowerStr).count t) from
          by rw [vsPostEntry, if_pos htd])]
      have : (vsAddDoc st d).post t =
          st.post t ++ [(d.document_id, (d.terms.map lowerStr).count t)] := by
        simp only [vsAddDoc]
        rw [if_pos htd]
      rw [this, List.append_assoc, List.singleton_append]
    · rw [List.filterMap_cons_none
        (show vsPostEntry t d = none from by rw [vsPostEntry, if_neg htd])]
      have : (vsAddDoc st d).post t = st.post t := by
        simp only [vsAddDoc]
        rw [if_neg htd]
      rw [this]

theorem vsBuild_keys :
    ∀ (docs : List VSDoc) (st : VSState) (t : String),
      t ∈ (docs.foldl vsAddDoc st).keys ↔
        t ∈ st.keys ∨ ∃ d ∈ docs, t ∈ d.terms.map lowerStr := by
  intro docs
  induction docs with
  | nil => intro st t; simp
  | cons d ds ih =>
    intro st t
    rw [List.foldl_cons, ih]
    have hadd : t ∈ (vsAddDoc st d).keys ↔
        t ∈ st.keys ∨ t ∈ d.terms.map lowerStr := by
      simp only [vsAddDoc, List.mem_append, List.mem_filter, List.mem_dedup]
      by_cases hk : t ∈ st.keys <;> simp [hk]
    rw [hadd]
    constructor
    · rintro ((hk | hd) | ⟨d', hd', ht'⟩)
      · exact Or.inl hk
      · exact Or.inr ⟨d, by simp, hd⟩
      · exact Or.inr ⟨d', by simp [hd'], ht'⟩
    · rintro (hk | ⟨d', hd', ht'⟩)
      · exact Or.inl (Or.inl hk)
      · rcases List.mem_cons.mp hd' with rfl | hd'
        · exact Or.inl (Or.inr ht')
        · exact Or.inr ⟨d', hd', ht'⟩

theorem length_filterMap_vsPostEntry (t : String) (l : List VSDoc) :
    (l.filterMap (vsPostEntry t)).length =
      (l.filter (fun d => decide (t ∈ d.terms.map lowerStr))).length := by
  induction l with
  | nil => rfl
  | cons a as ih =>
    by_cases ha : t ∈ a.terms.map lowerStr
    · rw [List.filterMap_cons_some
          (show vsPostEntry t a =
              some (a.document_id, (a.terms.map lowerStr).count t) from
            by rw [vsPostEntry, if_pos ha]),
        List.filter_cons, if_pos (by simpa using ha)]
      simpa using ih
    · rw [List.filterMap_cons_none
          (show vsPostEntry t a = none from by rw [vsPostEntry, if_neg ha]),
        List.filter_cons, if_neg (by simpa using ha)]
      exact ih

theorem vsBuild_df (docs : List VSDoc) (t : String) :
    get_overall_term_freq (vsBuild docs) t =
      (docs.filter (fun d => decide (t ∈ d.terms.map lowerStr))).length := by
  unfold get_overall_term_freq vsBuild
  by_cases hk : t ∈ (docs.foldl vsAddDoc vsInit).keys
  · rw [if_pos (by simpa using hk), vsBuild_post]
    have : (vsInit.post t) = [] := rfl
    rw [this, List.nil_append]
    exact length_filterMap_vsPostEntry t docs
  · rw [if_neg (by simpa using hk)]
    have hnone : ∀ d ∈ docs, t ∉ d.terms.map lowerStr := by
      intro d hd ht
      exact hk ((vsBuild_keys docs vsInit t).mpr (Or.inr ⟨d, hd, ht⟩))
    rw [List.filter_eq_nil_iff.mpr (by intro d hd; simpa using hnone d hd)]
    rfl

/-- Claim C3, counterexample: after indexing the single-document
collection `[⟨0, ["a"]⟩]` (one indexed document, `df("a") = 1`), the
code's idf is `log 82` — the hard-coded `total_docs = 82` of `__init__` —
and not `log(N/df) = log(1/1) = 0` for the actually indexed count
`N = 1`. -/
theorem C3_idf_refuted :
    ([⟨0, ["a"]⟩] : List VSDoc).length = 1 ∧
    get_overall_term_freq (vsBuild [⟨0, ["a"]⟩]) "a" = 1 ∧
    calculated_idf (vsBuild [⟨0, ["a"]⟩]) "a" = Real.log 82 ∧
    calculated_idf (vsBuild [⟨0, ["a"]⟩]) "a" ≠ Real.log ((1 : ℝ) / 1) := by
  have hdf : get_overall_term_freq (vsBuild [⟨0, ["a"]⟩]) "a" = 1 := by decide
  have htot : (vsBuild [⟨0, ["a"]⟩]).total_docs = 82 :=
    vsBuild_total_docs [⟨0, ["a"]⟩] vsInit
  have hidf : calculated_idf (vsBuild [⟨0, ["a"]⟩]) "a" = Real.log 82 := by
    rw [calculated_idf, if_pos (by rw [hdf]; exact one_ne_zero), hdf, htot]
    norm_num
  refine ⟨rfl, hdf, hidf, ?_⟩
  rw [hidf]
  have h82 : (0 : ℝ) < Real.log 82 := Real.log_pos (by norm_num)
  intro h
  rw [h] at h82
  simp at h82

/-- Claim C3 (amended): in the vector space model,
`df(t)` equals the number of indexed documents whose (lower-cased) term
list contains `t`; `idf(t) = 0` when `df(t) = 0`; and when `df(t) ≠ 0`,
`idf(t) = ln(82 / df(t))` where `82` is the model's hard-coded
`total_docs` constant — NOT the number of documents actually indexed
(they coincide only for a collection of exactly 82 documents). -/
theorem C3_idf_constant (docs : List VSDoc) (t : String) :
    (vsBuild docs).total_docs = 82 ∧
    get_overall_term_freq (vsBuild docs) t =
      (docs.filter (fun d => decide (t ∈ d.terms.map lowerStr))).length ∧
    (get_overall_term_freq (vsBuild docs) t = 0 →
      calculated_idf (vsBuild docs) t = 0) ∧
    (get_overall_term_freq (vsBuild docs) t ≠ 0 →
      calculated_idf (vsBuild docs) t =
        Real.log ((82 : ℝ) / (get_overall_term_freq (vsBuild docs) t : ℝ))) := by
  refine ⟨vsBuild_total_docs docs vsInit, vsBuild_df docs t, fun h0 => ?_, fun h0 => ?_⟩
  · rw [calculated_idf, if_neg (by simp [h0])]
  · have htot : (vsBuild docs).total_docs = 82 := vsBuild_total_docs docs vsInit
    rw [calculated_idf, if_pos h0, htot]
    norm_num

/-- Witness for claim C3 (amended): the `df ≠ 0` clause at the
one-document collection. -/
theorem C3_idf_constant_witness :
    get_overall_term_freq (vsBuild [⟨0, ["a"]⟩]) "a" ≠ 0 ∧
    calculated_idf (vsBuild [⟨0, ["a"]⟩]) "a" =
      Real.log ((82 : ℝ) /
        (get_overall_term_freq (vsBuild [⟨0, ["a"]⟩]) "a" : ℝ)) :=
  ⟨by decide, (C3_idf_constant [⟨0, ["a"]⟩] "a").2.2.2 (by decide)⟩

/-- Claim C9: `cosine_similarity` returns 0.0 whenever either vector norm
is zero (in particular for an empty query vector), otherwise returns the
dot product divided by the product of the two norms with that product
provably nonzero — it never divides by zero; a document sharing no
weighted vocabulary with the query (zero dot product) also scores 0.0
through either branch. -/
theorem C9_cosine_guard (v1 v2 : PyDict) :
    (pyNorm v1 = 0 ∨ pyNorm v2 = 0 → cosine_similarity v1 v2 = 0) ∧
    (pyNorm v1 ≠ 0 → pyNorm v2 ≠ 0 →
      cosine_similarity v1 v2 = dotProduct v1 v2 / (pyNorm v1 * pyNorm v2) ∧
      pyNorm v1 * pyNorm v2 ≠ 0) ∧
    (v1.keys = [] → cosine_similarity v1 v2 = 0) ∧
    (dotProduct v1 v2 = 0 → cosine_similarity v1 v2 = 0) := by
  refine ⟨fun h => ?_, fun h1 h2 => ⟨?_, mul_ne_zero h1 h2⟩, fun hk => ?_,
    fun hd => ?_⟩
  · rw [cosine_similarity, if_pos h]
  · rw [cosine_similarity, if_neg (by tauto)]
  · rw [cosine_similarity, if_pos (Or.inl (by simp [pyNorm, hk]))]
  · by_cases h : pyNorm v1 = 0 ∨ pyNorm v2 = 0
    · rw [cosine_similarity, if_pos h]
    · rw [cosine_similarity, if_neg h, hd, zero_div]

/-- Witness for claim C9: an empty query dict against a one-term document
dict scores 0. -/
theorem C9_cosine_guard_witness :
    cosine_similarity ⟨[], fun _ => 0⟩ ⟨["a"], fun _ => 1⟩ = 0 :=
  (C9_cosine_guard ⟨[], fun _ => 0⟩ ⟨["a"], fun _ => 1⟩).2.2.1 rfl

/-- The scores entry a document contributes (helper for stating the effect
of `match`'s scoring loop). -/
noncomputable def vsScoreEntry (st : VSState) (qv : PyDict) (d : VSDoc) :
    Option (ℕ × ℝ) :=
  if 0 < vsSim st qv d then some (d.document_id, rnd3 (vsSim st qv d))
  else none

theorem dictInsert_of_not_mem (l : List (ℕ × ℝ)) (key : ℕ) (v : ℝ)
    (h : ∀ p ∈ l, p.1 ≠ key) : dictInsert l key v = l ++ [(key, v)] := by
  rw [dictInsert, if_neg]
  simp only [List.any_eq_true, decide_eq_true_eq, not_exists]
  intro p
  rintro ⟨hp, hpk⟩
  exact h p hp hpk

theorem vsScores_foldl_eq (st : VSState) (qv : PyDict) :
    ∀ (docs : List VSDoc) (acc : List (ℕ × ℝ)),
      (docs.map VSDoc.document_id).Nodup →
      (∀ d ∈ docs, ∀ p ∈ acc, p.1 ≠ d.document_id) →
      docs.foldl (vsScoreStep st qv) acc =
        acc ++ docs.filterMap (vsScoreEntry st qv) := by
  intro docs
  induction docs with
  | nil => intro acc _ _; simp
  | cons d ds ih =>
    intro acc hN hacc
    rw [List.map_cons, List.nodup_cons] at hN
    rw [List.foldl_cons]
    by_cases hsim : 0 < vsSim st qv d
    · have hstep : vsScoreStep st qv acc d =
          acc ++ [(d.document_id, rnd3 (vsSim st qv d))] := by
        rw [vsScoreStep, if_pos hsim,
          dictInsert_of_not_mem _ _ _
            (fun p hp => hacc d (List.mem_cons_self d ds) p hp)]
      rw [hstep, ih _ hN.2 ?_, List.filterMap_cons_some
          (show vsScoreEntry st qv d =
              some (d.document_id, rnd3 (vsSim st qv d)) from
            by rw [vsScoreEntry, if_pos hsim]),
        List.append_assoc, List.singleton_append]
      intro d' hd' p hp
      rcases List.mem_append.mp hp with hp | hp
      · exact hacc d' (List.mem_cons_of_mem d hd') p hp
      · rcases List.mem_singleton.mp hp with rfl
        intro hcon
        exact hN.1 (List.mem_map.mpr ⟨d', hd', hcon.symm⟩)
    · have hstep : vsScoreStep st qv acc d = acc := by
        rw [vsScoreStep, if_neg hsim]
      rw [hstep, ih _ hN.2
          (fun d' hd' p hp => hacc d' (List.mem_cons_of_mem d hd') p hp),
        List.filterMap_cons_none
          (show vsScoreEntry st qv d = none from
            by rw [vsScoreEntry, if_neg hsim])]

theorem vsScores_eq (st : VSState) (qv : PyDict) (docs : List VSDoc)
    (hN : (docs.map VSDoc.document_id).Nodup) :
    vsScores st qv docs = docs.filterMap (vsScoreEntry st qv) := by
  unfold vsScores
  simpa using vsScores_foldl_eq st qv docs [] hN (by simp)

theorem scoreLe_trans : ∀ (a b c : ℕ × ℝ),
    scoreLe a b → scoreLe b c → scoreLe a c := by
  intro a b c hab hbc
  simp only [scoreLe, decide_eq_true_eq] at *
  exact le_trans hbc hab

theorem scoreLe_total : ∀ (a b : ℕ × ℝ), scoreLe a b || scoreLe b a := by
  intro a b
  simp only [scoreLe, Bool.or_eq_true, decide_eq_true_eq]
  exact le_total b.2 a.2

/-- Claim C8: provided the collection's document ids are distinct (so the
`document_scores` dict assigns one entry per document), `match` returns
the pairs `(doc_id, similarity rounded to 3 digits)` of exactly the
documents with similarity strictly greater than 0, sorted descending by
the rounded similarity, with ties (equal rounded similarities) kept in
original document order — the stable-sort guarantee. -/
theorem C8_match_ranking (st : VSState) (docs : List VSDoc) (qv : PyDict)
    (hN : (docs.map VSDoc.document_id).Nodup) :
    (vs_match st docs qv).Pairwise (fun p q => q.2 ≤ p.2) ∧
    (∀ pr : ℕ × ℝ, pr ∈ vs_match st docs qv ↔
      ∃ d ∈ docs, 0 < vsSim st qv d ∧
        pr = (d.document_id, rnd3 (vsSim st qv d))) ∧
    (∀ d1 d2 : VSDoc, [d1, d2].Sublist docs →
      0 < vsSim st qv d1 → 0 < vsSim st qv d2 →
      rnd3 (vsSim st qv d1) = rnd3 (vsSim st qv d2) →
      [(d1.document_id, rnd3 (vsSim st qv d1)),
       (d2.document_id, rnd3 (vsSim st qv d2))].Sublist
        (vs_match st docs qv)) := by
  have hscores : vsScores st qv docs = docs.filterMap (vsScoreEntry st qv) :=
    vsScores_eq st qv docs hN
  refine ⟨?_, ?_, ?_⟩
  · exact (List.sorted_mergeSort scoreLe_trans scoreLe_total
      (vsScores st qv docs)).imp (fun h => of_decide_eq_true h)
  · intro pr
    rw [vs_match, List.mem_mergeSort, hscores, List.mem_filterMap]
    constructor
    · rintro ⟨d, hd, he⟩
      by_cases hsim : 0 < vsSim st qv d
      · rw [vsScoreEntry, if_pos hsim] at he
        exact ⟨d, hd, hsim, (Option.some_inj.mp he).symm⟩
      · rw [vsScoreEntry, if_neg hsim] at he
        exact absurd he (by simp)
    · rintro ⟨d, hd, hsim, rfl⟩
      exact ⟨d, hd, by rw [vsScoreEntry, if_pos hsim]⟩
  · intro d1 d2 hsub h1 h2 heq
    have hfm := hsub.filterMap (vsScoreEntry st qv)
    rw [List.filterMap_cons_some
        (show vsScoreEntry st qv d1 =
            some (d1.document_id, rnd3 (vsSim st qv d1)) from
          by rw [vsScoreEntry, if_pos h1]),
      List.filterMap_cons_some
        (show vsScoreEntry st qv d2 =
            some (d2.document_id, rnd3 (vsSim st qv d2)) from
          by rw [vsScoreEntry, if_pos h2]),
      List.filterMap_nil] at hfm
    rw [vs_match]
    refine List.pair_sublist_mergeSort scoreLe_trans scoreLe_total ?_ ?_
    · simp only [scoreLe, decide_eq_true_eq]
      exact heq.ge
    · rw [hscores]
      exact hfm

/-- Witness for claim C8: the sortedness clause on a one-document
collection with distinct ids. -/
theorem C8_match_ranking_witness :
    (vs_match vsInit [⟨0, ["a"]⟩] ⟨[], fun _ => 0⟩).Pairwise
      (fun p q => q.2 ≤ p.2) :=
  (C8_match_ranking vsInit [⟨0, ["a"]⟩] ⟨[], fun _ => 0⟩ (by decide)).1
